import Mathlib

/-!
Verification of the settings-resolution engine in `pydantic/env_settings.py`.

Mappings are modelled as insertion-ordered association lists with
Python-`dict` assignment semantics (`dinsert` replaces in place, else
appends).  Values are either raw strings or nested mappings (`Value`),
so that the recursive deep-merge can be expressed.
-/

namespace EnvSettings

/-- A value in a settings mapping: a raw string or a nested mapping. -/
inductive Value where
  | str (s : String)
  | map (m : List (String × Value))

/-- A flat mapping from keys to values, insertion ordered. -/
abbrev ValMap := List (String × Value)

/-- Python `dict` lookup: the value of the (unique) entry with the given key. -/
def dlookup (m : List (String × α)) (k : String) : Option α :=
  (m.find? (fun p => p.1 == k)).map Prod.snd

/-- Python `dict` assignment `m[k] = v`: replace in place if the key is
present, keeping its position, else append at the end. -/
def dinsert : List (String × α) → String → α → List (String × α)
  | [], k, v => [(k, v)]
  | p :: rest, k, v => if p.1 == k then (k, v) :: rest else p :: dinsert rest k v

/-- Python `dict.update`: assign every entry of `o` into `b`, in order. -/
def dupdate (b o : List (String × α)) : List (String × α) :=
  o.foldl (fun acc p => dinsert acc p.1 p.2) b

/-- The keys of a mapping, in order. -/
def keys (m : List (String × α)) : List String :=
  m.map Prod.fst

/-- Size of a value, used as the termination measure of the deep merge. -/
def Value.size : Value → Nat
  | .str _ => 1
  | .map m => 1 + sizeList m
where
  /-- Size of a mapping: the sum of entry sizes plus the length. -/
  sizeList : List (String × Value) → Nat
  | [] => 0
  | (_, v) :: rest => 1 + Value.size v + sizeList rest

/-- Shorthand for the mapping-size measure. -/
def sizeList (m : ValMap) : Nat := Value.size.sizeList m

mutual

/-- Modelled from the spec: `deep_update(base, overrides)` (pydantic
`utils.deep_update`, not part of the sources).  For each key of
`overrides` in order: if both the accumulated value and the override
value are nested mappings, recursively deep-update them; otherwise the
override value replaces the old one outright.  Keys only in `base` are
untouched; keys only in `overrides` are added. -/
def deep_update : ValMap → ValMap → ValMap
  | base, [] => base
  | base, (k, v) :: rest =>
      deep_update (dinsert base k (combineVal (dlookup base k) v)) rest
  termination_by _ o => sizeList o
  decreasing_by
    all_goals (simp [sizeList, Value.size.sizeList, Value.size]; try omega)

/-- One override step of `deep_update`: merge two nested mappings,
otherwise the override value wins outright. -/
def combineVal : Option Value → Value → Value
  | some (Value.map m1), Value.map m2 => Value.map (deep_update m1 m2)
  | _, v => v
  termination_by _ v => Value.size v
  decreasing_by
    all_goals (simp [sizeList, Value.size.sizeList, Value.size]; try omega)

end

/-- Python `s.replace(old, "")` on character lists: scan left to right,
removing each (non-overlapping) occurrence of `p`; an empty pattern
removes nothing. -/
def remove_occs (p : List Char) : List Char → List Char
  | [] => []
  | c :: rest =>
      if h : p ≠ [] ∧ p.isPrefixOf (c :: rest) then
        remove_occs p (List.drop p.length (c :: rest))
      else
        c :: remove_occs p rest
  termination_by l => l.length
  decreasing_by
    · have hp : 0 < p.length := List.length_pos.mpr h.1
      simp [List.length_drop]
      omega
    · simp

/-- Python `s.replace(old, "")` on strings, as used by both normalizers
(`new_name.replace(env_prefix, "")`). -/
def py_replace (old : String) (s : String) : String :=
  String.mk (remove_occs old.data s.data)

/-- Stated from the spec sentence behind claim C4, for comparison with
the source: strip exactly one leading occurrence of the prefix and leave
any other occurrence intact. -/
def strip_leading_once (pre s : String) : String :=
  if pre.data ≠ [] ∧ pre.data.isPrefixOf s.data then
    String.mk (s.data.drop pre.data.length)
  else s

/-- The `Extra` policy of the model configuration. -/
inductive Extra where
  | allow
  | ignore
  | forbid
deriving DecidableEq

/-- The check `self.__config__.extra in (Extra.allow, Extra.ignore)`. -/
def relaxed_extra : Extra → Bool
  | .allow => true
  | .ignore => true
  | .forbid => false

/-- The engine's error for a complex-field decode failure
(`SettingsError(ValueError)` in the source). -/
structure SettingsError where
  message : String
deriving DecidableEq

/-- The fatal type-preparation error for an invalid `env` declaration
shape (the spec's `ConfigError`; the source raises `TypeError`). -/
structure ConfigError where
  message : String
deriving DecidableEq

/-- A prepared field descriptor: declaration name, external alias,
complex classification (`aliasName` models `field.alias`), and the resolved `env_names` in lookup order
(the boundary data owned by the model/validation framework). -/
structure FieldDesc where
  name : String
  aliasName : String
  isComplex : Bool
  envNames : List String

namespace BaseSettings

/-- The keep/drop and case-folding decision of `_normalize_items` for a
single key: under case sensitivity keep the key exactly when it is a
legal alias or the extra policy is relaxed; otherwise lower-case it
first and compare against the lower-cased legal aliases. -/
def norm_keep (case_sensitive : Bool) (extra : Extra) (legal_names : List String)
    (name : String) : Option String :=
  if case_sensitive then
    if legal_names.contains name || relaxed_extra extra then some name else none
  else
    let new_name := name.toLower
    if (legal_names.map String.toLower).contains new_name || relaxed_extra extra then
      some new_name
    else none

/-- One loop iteration of `_normalize_items`: drop null values, apply
the keep/drop decision, strip the prefix text with `str.replace`, and
assign into the result dict. -/
def norm_step (case_sensitive : Bool) (extra : Extra) (env_pre : String)
    (legal_names : List String) (result : ValMap) (p : String × Option String) : ValMap :=
  match p.2 with
  | none => result
  | some value =>
      match norm_keep case_sensitive extra legal_names p.1 with
      | none => result
      | some new_name => dinsert result (py_replace env_pre new_name) (Value.str value)

/-- Method `BaseSettings._normalize_items`, with the configuration
(`case_sensitive`, `extra`, `env_prefix`) and the field aliases
(`legal_names`) passed explicitly. -/
def _normalize_items (case_sensitive : Bool) (extra : Extra) (env_pre : String)
    (legal_names : List String) (items : List (String × Option String)) : ValMap :=
  items.foldl (norm_step case_sensitive extra env_pre legal_names) []

/-- Method `BaseSettings._get_additional_values`: each registered getter
(modelled by the mapping it returns when invoked with its fixed keyword
arguments) is normalized and then `dict.update`-ed into the result, in
registration order. -/
def _get_additional_values (case_sensitive : Bool) (extra : Extra) (env_pre : String)
    (legal_names : List String) (getter_results : List (List (String × Option String))) :
    ValMap :=
  getter_results.foldl
    (fun result g =>
      dupdate result (_normalize_items case_sensitive extra env_pre legal_names g)) []

/-- The snapshot of `os.environ` taken by `_build_environ`: the process
environment as-is when case-sensitive, else the dict comprehension
lower-casing every key (later entries win on collision). -/
def env_snapshot (case_sensitive : Bool) (environ : List (String × String)) :
    List (String × String) :=
  if case_sensitive then environ
  else environ.foldl (fun acc p => dinsert acc p.1.toLower p.2) []

/-- The inner loop of `_build_environ` over a field's `env_names`: the
first name present in the snapshot, together with its value. -/
def lookup_env (vars : List (String × String)) : List String → Option (String × String)
  | [] => none
  | n :: rest =>
      match dlookup vars n with
      | some v => some (n, v)
      | none => lookup_env vars rest

/-- The field loop of `_build_environ`, accumulating dict `d`: a field
with no present env name is skipped; a complex field's raw value is
decoded with the injected `json_loads` (failure raises `SettingsError`
naming the env variable); the value is stored under the field's alias. -/
def build_environ_go (json_loads : String → Option Value) (vars : List (String × String)) :
    List FieldDesc → ValMap → Except SettingsError ValMap
  | [], d => .ok d
  | f :: rest, d =>
      match lookup_env vars f.envNames with
      | none => build_environ_go json_loads vars rest d
      | some (n, raw) =>
          if f.isComplex then
            match json_loads raw with
            | some v => build_environ_go json_loads vars rest (dinsert d f.aliasName v)
            | none => .error ⟨"error parsing JSON for \x22" ++ n ++ "\x22"⟩
          else
            build_environ_go json_loads vars rest (dinsert d f.aliasName (Value.str raw))

/-- Method `BaseSettings._build_environ`. -/
def _build_environ (case_sensitive : Bool) (json_loads : String → Option Value)
    (fields : List FieldDesc) (environ : List (String × String)) :
    Except SettingsError ValMap :=
  build_environ_go json_loads (env_snapshot case_sensitive environ) fields []

/-- Method `BaseSettings._build_values`: deep-update the additional
values with the environment values, then with the `__init__` kwargs. -/
def _build_values (init_kwargs environ_values additional_values : ValMap) : ValMap :=
  deep_update (deep_update additional_values environ_values) init_kwargs

/-- The `env` entry of a field's extra info, as classified by
`Config.prepare_field`: absent, a string, a set (`set`/`frozenset`,
contents in iteration order), an ordered sequence (`sequence_like`), or
any other shape, carrying its `repr` and `display_as_type` texts. -/
inductive EnvSetting where
  | absent
  | str (s : String)
  | set (names : List String)
  | seq (names : List String)
  | other (reprStr : String) (typeName : String)

/-- The message of the error raised for an invalid `env` shape. -/
def invalid_env_message (reprStr typeName : String) : String :=
  "invalid field env: " ++ reprStr ++ " (" ++ typeName ++ "); should be string, list or set"

/-- Method `BaseSettings.Config.prepare_field`: resolve a field's
`env_names` (and whether the legacy-alias warning fires) from its `env`
setting, the class prefix and case sensitivity.  Returns the resolved
names in lookup order and the warning flag, or the fatal error. -/
def prepare_field (env_pre : String) (case_sensitive : Bool) (field_name : String)
    (has_alias : Bool) (env : EnvSetting) : Except ConfigError (List String × Bool) :=
  match env with
  | .other r t => .error ⟨invalid_env_message r t⟩
  | _ =>
      let base : List String :=
        match env with
        | .absent => [env_pre ++ field_name]
        | .str s => [s]
        | .set ns => ns
        | .seq ns => ns
        | .other _ _ => []
      let warned : Bool :=
        match env with
        | .absent => has_alias
        | _ => false
      .ok ((if case_sensitive then base else base.map String.toLower), warned)

end BaseSettings

/-- One loop iteration of the module-level `normalize_items` (the
variant used by `read_additional_values`): drop null values, lower-case
the key unless case-sensitive, strip the prefix text with `str.replace`,
and assign — with no legality or extra-policy filtering at all. -/
def module_norm_step (case_sensitive : Bool) (env_pre : String)
    (result : List (String × String)) (p : String × Option String) :
    List (String × String) :=
  match p.2 with
  | none => result
  | some value =>
      dinsert result (py_replace env_pre (if case_sensitive then p.1 else p.1.toLower)) value

/-- Module-level function `normalize_items` loop, folding the step over
the items. -/
def normalize_items (items : List (String × Option String)) (case_sensitive : Bool)
    (env_pre : String) : List (String × String) :=
  items.foldl (module_norm_step case_sensitive env_pre) []

/-- Module-level function `read_additional_values`: invoke the getter
with its keyword arguments (modelled by the mapping it returns) and
normalize the result with the module-level `normalize_items`. -/
def read_additional_values (getter_result : List (String × Option String))
    (is_case_sensitive : Bool) (env_pre : String) : List (String × String) :=
  normalize_items getter_result is_case_sensitive env_pre

/-! Well-formed mappings: unique keys at every nesting level, as Python
dicts guarantee. -/

mutual

/-- A value is well formed when every nested mapping has unique keys. -/
def wfVal : Value → Bool
  | .str _ => true
  | .map m => wfMap m

/-- A mapping is well formed when its keys are unique and its values are
well formed, recursively. -/
def wfMap : List (String × Value) → Bool
  | [] => true
  | (k, v) :: rest => !((keys rest).contains k) && wfVal v && wfMap rest

end

/-- All values of a mapping are raw strings. -/
def strValued (m : ValMap) : Prop := ∀ p ∈ m, ∃ s, p.2 = Value.str s

/-- Fold over optional values keeping the last present one, starting
from `init`. -/
def last_present_from (init : Option α) (l : List (Option α)) : Option α :=
  l.foldl (fun acc o => match o with | some v => some v | none => acc) init

/-- The last present value among a list of optional values (later
entries override earlier ones). -/
def last_present (l : List (Option α)) : Option α :=
  last_present_from none l

/-! Basic lemmas about the dictionary operations. -/

theorem dlookup_cons (q : String × α) (m : List (String × α)) (k : String) :
    dlookup (q :: m) k = if q.1 = k then some q.2 else dlookup m k := by
  by_cases h : q.1 = k
  · simp [dlookup, List.find?, h]
  · have hb : (q.1 == k) = false := by simp [h]
    simp [dlookup, List.find?, hb, h]

theorem dinsert_cons_pos (q : String × α) (m : List (String × α)) (k : String) (v : α)
    (h : q.1 = k) : dinsert (q :: m) k v = (k, v) :: m := by
  have hb : (q.1 == k) = true := by simp [h]
  simp only [dinsert, hb, if_true]

theorem dinsert_cons_neg (q : String × α) (m : List (String × α)) (k : String) (v : α)
    (h : ¬ q.1 = k) : dinsert (q :: m) k v = q :: dinsert m k v := by
  have hb : (q.1 == k) = false := by simp [h]
  simp only [dinsert, hb, Bool.false_eq_true, if_false]

theorem keys_cons (q : String × α) (m : List (String × α)) :
    keys (q :: m) = q.1 :: keys m := rfl

theorem dlookup_dinsert (m : List (String × α)) (k k' : String) (v : α) :
    dlookup (dinsert m k v) k' = if k = k' then some v else dlookup m k' := by
  induction m with
  | nil =>
    have h0 : dinsert ([] : List (String × α)) k v = [(k, v)] := rfl
    rw [h0, dlookup_cons]
  | cons q rest ih =>
    by_cases h : q.1 = k
    · rw [dinsert_cons_pos q rest k v h, dlookup_cons, dlookup_cons]
      by_cases hk : k = k'
      · simp [hk]
      · simp [hk, h]
    · rw [dinsert_cons_neg q rest k v h, dlookup_cons, dlookup_cons, ih]
      by_cases hk : k = k'
      · subst hk
        simp [h]
      · simp [hk]

theorem mem_keys_iff_dlookup (m : List (String × α)) (k : String) :
    k ∈ keys m ↔ dlookup m k ≠ none := by
  induction m with
  | nil => simp [keys, dlookup]
  | cons q rest ih =>
    rw [dlookup_cons, keys_cons]
    by_cases h : q.1 = k
    · simp [h]
    · have hne : ¬ k = q.1 := fun hc => h hc.symm
      simp [h, hne, ih]

theorem keys_dinsert (m : List (String × α)) (k : String) (v : α) :
    keys (dinsert m k v) = if k ∈ keys m then keys m else keys m ++ [k] := by
  induction m with
  | nil => simp [dinsert, keys]
  | cons q rest ih =>
    by_cases h : q.1 = k
    · rw [dinsert_cons_pos q rest k v h, keys_cons, keys_cons]
      have hm : k ∈ q.1 :: keys rest := by rw [h]; exact List.mem_cons_self _ _
      simp [hm, h]
    · have hne : ¬ k = q.1 := fun hc => h hc.symm
      rw [dinsert_cons_neg q rest k v h, keys_cons, keys_cons, ih]
      by_cases hm : k ∈ keys rest
      · have hm2 : k ∈ q.1 :: keys rest := List.mem_cons_of_mem _ hm
        simp [hm, hm2]
      · have hm2 : ¬ k ∈ q.1 :: keys rest := by simp [hne, hm]
        simp [hm, hm2]

theorem mem_keys_dinsert (m : List (String × α)) (k k' : String) (v : α) :
    k' ∈ keys (dinsert m k v) ↔ k' ∈ keys m ∨ k' = k := by
  rw [keys_dinsert]
  by_cases h : k ∈ keys m
  · simp only [h, if_true]
    constructor
    · exact fun hm => Or.inl hm
    · rintro (hm | he)
      · exact hm
      · rw [he]; exact h
  · simp [h]

theorem nodup_keys_dinsert (m : List (String × α)) (k : String) (v : α)
    (h : (keys m).Nodup) : (keys (dinsert m k v)).Nodup := by
  rw [keys_dinsert]
  by_cases hm : k ∈ keys m
  · simpa [hm] using h
  · simp only [hm, if_false]
    simp [List.nodup_append, h, hm]

theorem mem_dlookup (m : List (String × α)) (p : String × α)
    (h : (keys m).Nodup) (hp : p ∈ m) : dlookup m p.1 = some p.2 := by
  induction m with
  | nil => cases hp
  | cons q rest ih =>
    rw [keys_cons, List.nodup_cons] at h
    rcases List.mem_cons.mp hp with hq | hrest
    · subst hq
      simp [dlookup_cons]
    · have hne : q.1 ≠ p.1 := by
        intro he
        apply h.1
        rw [he]
        exact List.mem_map_of_mem Prod.fst hrest
      rw [dlookup_cons, if_neg hne]
      exact ih h.2 hrest

theorem dinsert_lookup_self (m : List (String × α)) (k : String) (v : α)
    (h : dlookup m k = some v) : dinsert m k v = m := by
  induction m with
  | nil => simp [dlookup] at h
  | cons q rest ih =>
    rw [dlookup_cons] at h
    by_cases hq : q.1 = k
    · rw [if_pos hq] at h
      have hv : q.2 = v := Option.some.inj h
      have he : (k, v) = q := by rw [← hq, ← hv]
      rw [dinsert_cons_pos q rest k v hq, he]
    · rw [if_neg hq] at h
      rw [dinsert_cons_neg q rest k v hq, ih h]

theorem mem_dinsert (m : List (String × α)) (k : String) (v : α) (p : String × α)
    (hp : p ∈ dinsert m k v) : p ∈ m ∨ p = (k, v) := by
  induction m with
  | nil =>
    right
    have h0 : dinsert ([] : List (String × α)) k v = [(k, v)] := rfl
    rw [h0] at hp
    simpa using hp
  | cons q rest ih =>
    by_cases h : q.1 = k
    · rw [dinsert_cons_pos q rest k v h] at hp
      rcases List.mem_cons.mp hp with he | hm
      · right; exact he
      · left; exact List.mem_cons_of_mem q hm
    · rw [dinsert_cons_neg q rest k v h] at hp
      rcases List.mem_cons.mp hp with he | hm
      · left; rw [he]; exact List.mem_cons_self q rest
      · rcases ih hm with h1 | h2
        · left; exact List.mem_cons_of_mem q h1
        · right; exact h2

/-! Lemmas about `deep_update` and `dupdate`. -/

theorem deep_update_nil (b : ValMap) : deep_update b [] = b := by
  simp [deep_update]

theorem deep_update_cons (b : ValMap) (k : String) (v : Value) (rest : ValMap) :
    deep_update b ((k, v) :: rest) =
      deep_update (dinsert b k (combineVal (dlookup b k) v)) rest := by
  rw [deep_update]

theorem dlookup_deep_update (b o : ValMap) (k : String) :
    (keys o).Nodup →
    dlookup (deep_update b o) k =
      match dlookup o k with
      | none => dlookup b k
      | some v => some (combineVal (dlookup b k) v) := by
  induction o generalizing b with
  | nil =>
    intro _
    simp [deep_update_nil, dlookup]
  | cons q rest ih =>
    intro h
    obtain ⟨k', v⟩ := q
    rw [keys_cons, List.nodup_cons] at h
    rw [deep_update_cons, ih _ h.2, dlookup_cons]
    by_cases hk : k' = k
    · subst hk
      have hnone : dlookup rest k' = none := by
        by_contra hc
        exact h.1 ((mem_keys_iff_dlookup rest k').mpr hc)
      rw [hnone]
      simp [dlookup_dinsert]
    · rw [dlookup_dinsert, if_neg hk, if_neg hk]

theorem mem_keys_deep_update (b o : ValMap) (k : String) :
    k ∈ keys (deep_update b o) ↔ k ∈ keys b ∨ k ∈ keys o := by
  induction o generalizing b with
  | nil => simp [deep_update_nil, keys]
  | cons q rest ih =>
    obtain ⟨k', v⟩ := q
    rw [deep_update_cons, ih, mem_keys_dinsert, keys_cons]
    simp [List.mem_cons]
    tauto

theorem nodup_keys_deep_update (b o : ValMap) (h : (keys b).Nodup) :
    (keys (deep_update b o)).Nodup := by
  induction o generalizing b with
  | nil => simpa [deep_update_nil] using h
  | cons q rest ih =>
    obtain ⟨k', v⟩ := q
    rw [deep_update_cons]
    exact ih _ (nodup_keys_dinsert _ _ _ h)

theorem dupdate_nil (b : List (String × α)) : dupdate b [] = b := rfl

theorem dupdate_cons (b : List (String × α)) (q : String × α) (o : List (String × α)) :
    dupdate b (q :: o) = dupdate (dinsert b q.1 q.2) o := rfl

theorem dlookup_dupdate (b o : List (String × α)) (k : String) :
    (keys o).Nodup →
    dlookup (dupdate b o) k =
      match dlookup o k with
      | none => dlookup b k
      | some v => some v := by
  induction o generalizing b with
  | nil =>
    intro _
    simp [dupdate_nil, dlookup]
  | cons q rest ih =>
    intro h
    obtain ⟨k', v⟩ := q
    rw [keys_cons, List.nodup_cons] at h
    rw [dupdate_cons, ih _ h.2, dlookup_cons]
    by_cases hk : k' = k
    · subst hk
      have hnone : dlookup rest k' = none := by
        by_contra hc
        exact h.1 ((mem_keys_iff_dlookup rest k').mpr hc)
      rw [hnone]
      simp [dlookup_dinsert]
    · rw [dlookup_dinsert, if_neg hk, if_neg hk]

theorem mem_keys_dupdate (b o : List (String × α)) (k : String) :
    k ∈ keys (dupdate b o) ↔ k ∈ keys b ∨ k ∈ keys o := by
  induction o generalizing b with
  | nil => simp [dupdate_nil, keys]
  | cons q rest ih =>
    rw [dupdate_cons, ih, mem_keys_dinsert, keys_cons]
    simp [List.mem_cons]
    tauto

theorem nodup_keys_dupdate (b o : List (String × α)) (h : (keys b).Nodup) :
    (keys (dupdate b o)).Nodup := by
  induction o generalizing b with
  | nil => simpa [dupdate_nil] using h
  | cons q rest ih =>
    rw [dupdate_cons]
    exact ih _ (nodup_keys_dinsert _ _ _ h)

theorem wfMap_cons (k : String) (v : Value) (rest : ValMap) (h : wfMap ((k, v) :: rest) = true) :
    k ∉ keys rest ∧ wfVal v = true ∧ wfMap rest = true := by
  simp [wfMap] at h
  exact ⟨h.1.1, h.1.2, h.2⟩

theorem wfMap_nodup (m : ValMap) (h : wfMap m = true) : (keys m).Nodup := by
  induction m with
  | nil => simp [keys]
  | cons q rest ih =>
    obtain ⟨k, v⟩ := q
    obtain ⟨h1, _, h3⟩ := wfMap_cons k v rest h
    rw [keys_cons, List.nodup_cons]
    exact ⟨h1, ih h3⟩

theorem wfMap_entries (m : ValMap) (h : wfMap m = true) (p : String × Value) (hp : p ∈ m) :
    dlookup m p.1 = some p.2 ∧ wfVal p.2 = true := by
  refine ⟨mem_dlookup m p (wfMap_nodup m h) hp, ?_⟩
  induction m with
  | nil => cases hp
  | cons q rest ih =>
    obtain ⟨k, v⟩ := q
    obtain ⟨_, h2, h3⟩ := wfMap_cons k v rest h
    rcases List.mem_cons.mp hp with he | hm
    · rw [he]
      exact h2
    · exact ih h3 hm

theorem deep_update_agree (n : Nat) : ∀ (o b : ValMap), sizeList o ≤ n →
    (∀ p, p ∈ o → dlookup b p.1 = some p.2 ∧ wfVal p.2 = true) →
    deep_update b o = b := by
  induction n with
  | zero =>
    intro o b hs _
    cases o with
    | nil => exact deep_update_nil b
    | cons q rest =>
      exfalso
      obtain ⟨k, v⟩ := q
      simp [sizeList, Value.size.sizeList] at hs
  | succ n ih =>
    intro o b hs hagree
    cases o with
    | nil => exact deep_update_nil b
    | cons q rest =>
      obtain ⟨k, v⟩ := q
      have hsz : 1 + Value.size v + sizeList rest ≤ n + 1 := by
        simpa [sizeList, Value.size.sizeList] using hs
      have hq := hagree (k, v) (List.mem_cons_self _ _)
      have hcv : combineVal (dlookup b k) v = v := by
        rw [hq.1]
        cases v with
        | str s => simp [combineVal]
        | map m =>
          have hm : wfMap m = true := by
            have := hq.2
            simpa [wfVal] using this
          have hsm : sizeList m ≤ n := by
            have : Value.size (Value.map m) = 1 + sizeList m := by
              simp [Value.size, sizeList]
            omega
          have hrec : deep_update m m = m :=
            ih m m hsm (fun p hp => wfMap_entries m hm p hp)
          simp [combineVal, hrec]
      rw [deep_update_cons, hcv, dinsert_lookup_self b k v hq.1]
      refine ih rest b (by omega) ?_
      intro p hp
      exact hagree p (List.mem_cons_of_mem _ hp)

theorem deep_update_self (x : ValMap) (h : wfMap x = true) : deep_update x x = x :=
  deep_update_agree (sizeList x) x x (Nat.le_refl _) (fun p hp => wfMap_entries x h p hp)

/-! Invariants of the normalizers and of the getter union. -/

theorem norm_step_none (cs : Bool) (e : Extra) (pre : String) (legal : List String)
    (result : ValMap) (name : String) :
    BaseSettings.norm_step cs e pre legal result (name, none) = result := rfl

theorem norm_step_some (cs : Bool) (e : Extra) (pre : String) (legal : List String)
    (result : ValMap) (name v : String) :
    BaseSettings.norm_step cs e pre legal result (name, some v) =
      match BaseSettings.norm_keep cs e legal name with
      | none => result
      | some nm => dinsert result (py_replace pre nm) (Value.str v) := rfl

theorem nodup_keys_norm_foldl (cs : Bool) (e : Extra) (pre : String) (legal : List String) :
    ∀ (items : List (String × Option String)) (acc : ValMap), (keys acc).Nodup →
      (keys (items.foldl (BaseSettings.norm_step cs e pre legal) acc)).Nodup := by
  intro items
  induction items with
  | nil => intro acc h; exact h
  | cons p rest ih =>
    intro acc h
    rw [List.foldl_cons]
    apply ih
    obtain ⟨name, v⟩ := p
    cases v with
    | none => rw [norm_step_none]; exact h
    | some v =>
      rw [norm_step_some]
      cases BaseSettings.norm_keep cs e legal name with
      | none => exact h
      | some nm => exact nodup_keys_dinsert _ _ _ h

theorem nodup_keys_normalize (cs : Bool) (e : Extra) (pre : String) (legal : List String)
    (items : List (String × Option String)) :
    (keys (BaseSettings._normalize_items cs e pre legal items)).Nodup :=
  nodup_keys_norm_foldl cs e pre legal items [] (by simp [keys])

theorem strValued_dinsert (m : ValMap) (k s : String) (h : strValued m) :
    strValued (dinsert m k (Value.str s)) := by
  intro p hp
  rcases mem_dinsert m k (Value.str s) p hp with hm | he
  · exact h p hm
  · exact ⟨s, by rw [he]⟩

theorem strValued_norm_foldl (cs : Bool) (e : Extra) (pre : String) (legal : List String) :
    ∀ (items : List (String × Option String)) (acc : ValMap), strValued acc →
      strValued (items.foldl (BaseSettings.norm_step cs e pre legal) acc) := by
  intro items
  induction items with
  | nil => intro acc h; exact h
  | cons p rest ih =>
    intro acc h
    rw [List.foldl_cons]
    apply ih
    obtain ⟨name, v⟩ := p
    cases v with
    | none => rw [norm_step_none]; exact h
    | some v =>
      rw [norm_step_some]
      cases BaseSettings.norm_keep cs e legal name with
      | none => exact h
      | some nm => exact strValued_dinsert _ _ _ h

theorem strValued_normalize (cs : Bool) (e : Extra) (pre : String) (legal : List String)
    (items : List (String × Option String)) :
    strValued (BaseSettings._normalize_items cs e pre legal items) :=
  strValued_norm_foldl cs e pre legal items [] (fun p hp => absurd hp (List.not_mem_nil p))

theorem mem_dupdate (b o : List (String × α)) (p : String × α) (hp : p ∈ dupdate b o) :
    p ∈ b ∨ p ∈ o := by
  induction o generalizing b with
  | nil => left; exact hp
  | cons q rest ih =>
    rw [dupdate_cons] at hp
    rcases ih _ hp with hm | hr
    · rcases mem_dinsert b q.1 q.2 p hm with hb | he
      · left; exact hb
      · right
        rw [he, Prod.mk.eta]
        exact List.mem_cons_self _ _
    · right; exact List.mem_cons_of_mem _ hr

theorem strValued_dupdate (b o : ValMap) (hb : strValued b) (ho : strValued o) :
    strValued (dupdate b o) := by
  intro p hp
  rcases mem_dupdate b o p hp with h | h
  · exact hb p h
  · exact ho p h

theorem strValued_gav_foldl (cs : Bool) (e : Extra) (pre : String) (legal : List String) :
    ∀ (gs : List (List (String × Option String))) (acc : ValMap), strValued acc →
      strValued (gs.foldl
        (fun r g => dupdate r (BaseSettings._normalize_items cs e pre legal g)) acc) := by
  intro gs
  induction gs with
  | nil => intro acc h; exact h
  | cons g rest ih =>
    intro acc h
    rw [List.foldl_cons]
    exact ih _ (strValued_dupdate _ _ h (strValued_normalize cs e pre legal g))

theorem strValued_gav (cs : Bool) (e : Extra) (pre : String) (legal : List String)
    (gs : List (List (String × Option String))) :
    strValued (BaseSettings._get_additional_values cs e pre legal gs) :=
  strValued_gav_foldl cs e pre legal gs [] (fun p hp => absurd hp (List.not_mem_nil p))

theorem nodup_keys_gav_foldl (cs : Bool) (e : Extra) (pre : String) (legal : List String) :
    ∀ (gs : List (List (String × Option String))) (acc : ValMap), (keys acc).Nodup →
      (keys (gs.foldl
        (fun r g => dupdate r (BaseSettings._normalize_items cs e pre legal g)) acc)).Nodup := by
  intro gs
  induction gs with
  | nil => intro acc h; exact h
  | cons g rest ih =>
    intro acc h
    rw [List.foldl_cons]
    exact ih _ (nodup_keys_dupdate _ _ h)

theorem nodup_keys_gav (cs : Bool) (e : Extra) (pre : String) (legal : List String)
    (gs : List (List (String × Option String))) :
    (keys (BaseSettings._get_additional_values cs e pre legal gs)).Nodup :=
  nodup_keys_gav_foldl cs e pre legal gs [] (by simp [keys])

theorem dlookup_gav_foldl (cs : Bool) (e : Extra) (pre : String) (legal : List String)
    (k : String) :
    ∀ (gs : List (List (String × Option String))) (acc : ValMap), (keys acc).Nodup →
      dlookup (gs.foldl
          (fun r g => dupdate r (BaseSettings._normalize_items cs e pre legal g)) acc) k =
        last_present_from (dlookup acc k)
          (gs.map (fun g => dlookup (BaseSettings._normalize_items cs e pre legal g) k)) := by
  intro gs
  induction gs with
  | nil => intro acc _; rfl
  | cons g rest ih =>
    intro acc h
    rw [List.foldl_cons, List.map_cons,
      ih _ (nodup_keys_dupdate _ _ h),
      dlookup_dupdate _ _ k (nodup_keys_normalize cs e pre legal g)]
    cases dlookup (BaseSettings._normalize_items cs e pre legal g) k <;> rfl

/-! Lemmas about the environment-reading loop. -/

theorem build_environ_go_nil (jl : String → Option Value) (vars : List (String × String))
    (d : ValMap) : BaseSettings.build_environ_go jl vars [] d = .ok d := rfl

theorem build_environ_go_cons (jl : String → Option Value) (vars : List (String × String))
    (f : FieldDesc) (rest : List FieldDesc) (d : ValMap) :
    BaseSettings.build_environ_go jl vars (f :: rest) d =
      match BaseSettings.lookup_env vars f.envNames with
      | none => BaseSettings.build_environ_go jl vars rest d
      | some (n, raw) =>
          if f.isComplex then
            match jl raw with
            | some v => BaseSettings.build_environ_go jl vars rest (dinsert d f.aliasName v)
            | none => .error ⟨"error parsing JSON for \x22" ++ n ++ "\x22"⟩
          else
            BaseSettings.build_environ_go jl vars rest
              (dinsert d f.aliasName (Value.str raw)) := rfl

theorem build_environ_go_cons_none (jl : String → Option Value)
    (vars : List (String × String)) (f : FieldDesc) (rest : List FieldDesc) (d : ValMap)
    (h : BaseSettings.lookup_env vars f.envNames = none) :
    BaseSettings.build_environ_go jl vars (f :: rest) d =
      BaseSettings.build_environ_go jl vars rest d := by
  rw [build_environ_go_cons, h]

theorem build_environ_go_cons_some (jl : String → Option Value)
    (vars : List (String × String)) (f : FieldDesc) (rest : List FieldDesc) (d : ValMap)
    (n raw : String) (h : BaseSettings.lookup_env vars f.envNames = some (n, raw)) :
    BaseSettings.build_environ_go jl vars (f :: rest) d =
      (if f.isComplex then
        match jl raw with
        | some v => BaseSettings.build_environ_go jl vars rest (dinsert d f.aliasName v)
        | none => .error ⟨"error parsing JSON for \x22" ++ n ++ "\x22"⟩
      else
        BaseSettings.build_environ_go jl vars rest
          (dinsert d f.aliasName (Value.str raw))) := by
  rw [build_environ_go_cons, h]

theorem build_environ_go_frame (jl : String → Option Value) (vars : List (String × String)) :
    ∀ (fs : List FieldDesc) (d d' : ValMap),
      BaseSettings.build_environ_go jl vars fs d = .ok d' →
      ∀ k, k ∉ fs.map FieldDesc.aliasName → dlookup d' k = dlookup d k := by
  intro fs
  induction fs with
  | nil =>
    intro d d' h k _
    rw [build_environ_go_nil] at h
    cases h
    rfl
  | cons f rest ih =>
    intro d d' h k hk
    rw [List.map_cons, List.mem_cons] at hk
    push_neg at hk
    cases hl : BaseSettings.lookup_env vars f.envNames with
    | none =>
      rw [build_environ_go_cons_none jl vars f rest d hl] at h
      exact ih d d' h k hk.2
    | some p =>
      obtain ⟨n, raw⟩ := p
      rw [build_environ_go_cons_some jl vars f rest d n raw hl] at h
      by_cases hc : f.isComplex
      · rw [if_pos hc] at h
        cases hj : jl raw with
        | none => rw [hj] at h; cases h
        | some v =>
          rw [hj] at h
          rw [ih _ d' h k hk.2, dlookup_dinsert, if_neg (fun he => hk.1 he.symm)]
      · rw [if_neg hc] at h
        rw [ih _ d' h k hk.2, dlookup_dinsert, if_neg (fun he => hk.1 he.symm)]

theorem build_environ_go_nodup (jl : String → Option Value) (vars : List (String × String)) :
    ∀ (fs : List FieldDesc) (d d' : ValMap), (keys d).Nodup →
      BaseSettings.build_environ_go jl vars fs d = .ok d' → (keys d').Nodup := by
  intro fs
  induction fs with
  | nil =>
    intro d d' hd h
    rw [build_environ_go_nil] at h
    cases h
    exact hd
  | cons f rest ih =>
    intro d d' hd h
    cases hl : BaseSettings.lookup_env vars f.envNames with
    | none =>
      rw [build_environ_go_cons_none jl vars f rest d hl] at h
      exact ih d d' hd h
    | some p =>
      obtain ⟨n, raw⟩ := p
      rw [build_environ_go_cons_some jl vars f rest d n raw hl] at h
      by_cases hc : f.isComplex
      · rw [if_pos hc] at h
        cases hj : jl raw with
        | none => rw [hj] at h; cases h
        | some v =>
          rw [hj] at h
          exact ih _ d' (nodup_keys_dinsert _ _ _ hd) h
      · rw [if_neg hc] at h
        exact ih _ d' (nodup_keys_dinsert _ _ _ hd) h

theorem build_environ_go_lookup (jl : String → Option Value) (vars : List (String × String)) :
    ∀ (fs : List FieldDesc) (d d' : ValMap),
      BaseSettings.build_environ_go jl vars fs d = .ok d' →
      (fs.map FieldDesc.aliasName).Nodup →
      (∀ g ∈ fs, dlookup d g.aliasName = none) →
      ∀ f ∈ fs,
        (BaseSettings.lookup_env vars f.envNames = none →
          dlookup d' f.aliasName = none) ∧
        (∀ n raw, BaseSettings.lookup_env vars f.envNames = some (n, raw) →
          f.isComplex = true →
          ∃ v, jl raw = some v ∧ dlookup d' f.aliasName = some v) ∧
        (∀ n raw, BaseSettings.lookup_env vars f.envNames = some (n, raw) →
          f.isComplex = false →
          dlookup d' f.aliasName = some (Value.str raw)) := by
  intro fs
  induction fs with
  | nil =>
    intro d d' _ _ _ f hf
    cases hf
  | cons f0 rest ih =>
    intro d d' h hnd hfresh f hf
    rw [List.map_cons, List.nodup_cons] at hnd
    rcases List.mem_cons.mp hf with he | hm
    · subst he
      cases hl : BaseSettings.lookup_env vars f.envNames with
      | none =>
        rw [build_environ_go_cons_none jl vars f rest d hl] at h
        refine ⟨fun _ => ?_, fun n raw hsome _ => ?_, fun n raw hsome _ => ?_⟩
        · rw [build_environ_go_frame jl vars rest d d' h f.aliasName hnd.1]
          exact hfresh f (List.mem_cons_self _ _)
        · cases hsome
        · cases hsome
      | some p =>
        obtain ⟨n0, raw0⟩ := p
        rw [build_environ_go_cons_some jl vars f rest d n0 raw0 hl] at h
        by_cases hc : f.isComplex
        · rw [if_pos hc] at h
          cases hj : jl raw0 with
          | none => rw [hj] at h; cases h
          | some v =>
            rw [hj] at h
            refine ⟨fun hnone => ?_, fun n raw hsome _ => ?_, fun n raw hsome hcf => ?_⟩
            · cases hnone
            · injection hsome with hpair
              injection hpair with h1 h2
              subst h1
              subst h2
              refine ⟨v, hj, ?_⟩
              rw [build_environ_go_frame jl vars rest _ d' h f.aliasName hnd.1,
                dlookup_dinsert]
              simp
            · rw [hc] at hcf
              cases hcf
        · rw [if_neg hc] at h
          have hcf0 : f.isComplex = false := by
            cases hcb : f.isComplex
            · rfl
            · exact absurd hcb hc
          refine ⟨fun hnone => ?_, fun n raw hsome hct => ?_, fun n raw hsome _ => ?_⟩
          · cases hnone
          · rw [hcf0] at hct; cases hct
          · injection hsome with hpair
            injection hpair with h1 h2
            subst h1
            subst h2
            rw [build_environ_go_frame jl vars rest _ d' h f.aliasName hnd.1,
              dlookup_dinsert]
            simp
    · have hfresh_tail : ∀ (x : ValMap), (∀ g ∈ rest, dlookup x g.aliasName = none) →
          ∀ g ∈ rest, dlookup x g.aliasName = none := fun x hx => hx
      cases hl0 : BaseSettings.lookup_env vars f0.envNames with
      | none =>
        rw [build_environ_go_cons_none jl vars f0 rest d hl0] at h
        exact ih d d' h hnd.2 (fun g hg => hfresh g (List.mem_cons_of_mem _ hg)) f hm
      | some p =>
        obtain ⟨n0, raw0⟩ := p
        rw [build_environ_go_cons_some jl vars f0 rest d n0 raw0 hl0] at h
        have hdi : ∀ (v : Value) (g : FieldDesc), g ∈ rest →
            dlookup (dinsert d f0.aliasName v) g.aliasName = none := by
          intro v g hg
          rw [dlookup_dinsert,
            if_neg (fun he => hnd.1
              (by rw [he]; exact List.mem_map_of_mem FieldDesc.aliasName hg))]
          exact hfresh g (List.mem_cons_of_mem _ hg)
        by_cases hc0 : f0.isComplex
        · rw [if_pos hc0] at h
          cases hj0 : jl raw0 with
          | none => rw [hj0] at h; cases h
          | some v =>
            rw [hj0] at h
            exact ih _ d' h hnd.2 (fun g hg => hdi v g hg) f hm
        · rw [if_neg hc0] at h
          exact ih _ d' h hnd.2 (fun g hg => hdi (Value.str raw0) g hg) f hm

theorem build_environ_go_error (jl : String → Option Value) (vars : List (String × String)) :
    ∀ (fs : List FieldDesc) (d : ValMap) (f : FieldDesc) (n raw : String),
      f ∈ fs → f.isComplex = true →
      BaseSettings.lookup_env vars f.envNames = some (n, raw) → jl raw = none →
      ∃ f' n' raw', f' ∈ fs ∧ f'.isComplex = true ∧
        BaseSettings.lookup_env vars f'.envNames = some (n', raw') ∧ jl raw' = none ∧
        BaseSettings.build_environ_go jl vars fs d =
          .error ⟨"error parsing JSON for \x22" ++ n' ++ "\x22"⟩ := by
  intro fs
  induction fs with
  | nil =>
    intro d f n raw hf
    cases hf
  | cons f0 rest ih =>
    intro d f n raw hf hc hl hj
    rcases List.mem_cons.mp hf with he | hm
    · subst he
      refine ⟨f, n, raw, List.mem_cons_self _ _, hc, hl, hj, ?_⟩
      rw [build_environ_go_cons_some jl vars f rest d n raw hl, if_pos hc, hj]
    · cases hl0 : BaseSettings.lookup_env vars f0.envNames with
      | none =>
        obtain ⟨f', n', raw', hf', hc', hl', hj', hgo⟩ :=
          ih d f n raw hm hc hl hj
        refine ⟨f', n', raw', List.mem_cons_of_mem _ hf', hc', hl', hj', ?_⟩
        rw [build_environ_go_cons_none jl vars f0 rest d hl0]
        exact hgo
      | some p =>
        obtain ⟨n0, raw0⟩ := p
        by_cases hc0 : f0.isComplex
        · cases hj0 : jl raw0 with
          | none =>
            refine ⟨f0, n0, raw0, List.mem_cons_self _ _, hc0, hl0, hj0, ?_⟩
            rw [build_environ_go_cons_some jl vars f0 rest d n0 raw0 hl0, if_pos hc0, hj0]
          | some v =>
            obtain ⟨f', n', raw', hf', hc', hl', hj', hgo⟩ :=
              ih (dinsert d f0.aliasName v) f n raw hm hc hl hj
            refine ⟨f', n', raw', List.mem_cons_of_mem _ hf', hc', hl', hj', ?_⟩
            rw [build_environ_go_cons_some jl vars f0 rest d n0 raw0 hl0, if_pos hc0, hj0]
            exact hgo
        · obtain ⟨f', n', raw', hf', hc', hl', hj', hgo⟩ :=
            ih (dinsert d f0.aliasName (Value.str raw0)) f n raw hm hc hl hj
          refine ⟨f', n', raw', List.mem_cons_of_mem _ hf', hc', hl', hj', ?_⟩
          rw [build_environ_go_cons_some jl vars f0 rest d n0 raw0 hl0, if_neg hc0]
          exact hgo

/-! Lemmas about the Python string replace. -/

theorem remove_occs_nil_right (p : List Char) : remove_occs p [] = [] := by
  rw [remove_occs]

theorem remove_occs_cons (p : List Char) (c : Char) (rest : List Char) :
    remove_occs p (c :: rest) =
      if _h : p ≠ [] ∧ p.isPrefixOf (c :: rest) then
        remove_occs p (List.drop p.length (c :: rest))
      else c :: remove_occs p rest := by
  rw [remove_occs]

theorem remove_occs_empty_pat (s : List Char) : remove_occs [] s = s := by
  induction s with
  | nil => exact remove_occs_nil_right []
  | cons c rest ih =>
    rw [remove_occs_cons, dif_neg (fun hc => hc.1 rfl), ih]

theorem remove_occs_cons_not (p : List Char) (c : Char) (rest : List Char)
    (h : ¬ p.isPrefixOf (c :: rest) = true) :
    remove_occs p (c :: rest) = c :: remove_occs p rest := by
  rw [remove_occs_cons, dif_neg (fun hc => h hc.2)]

theorem remove_occs_append_self (p l : List Char) (hp : p ≠ []) :
    remove_occs p (p ++ l) = remove_occs p l := by
  cases p with
  | nil => exact absurd rfl hp
  | cons c p2 =>
    have he : (c :: p2) ++ l = c :: (p2 ++ l) := rfl
    have hpre : (c :: p2).isPrefixOf (c :: (p2 ++ l)) = true := by
      rw [← he]
      exact List.isPrefixOf_iff_prefix.mpr (List.prefix_append _ _)
    rw [he, remove_occs_cons, dif_pos ⟨fun hc => List.noConfusion hc, hpre⟩]
    congr 1
    rw [List.length_cons, List.drop_succ_cons, List.drop_left]

theorem py_replace_empty (s : String) : py_replace "" s = s := by
  obtain ⟨l⟩ := s
  show String.mk (remove_occs [] l) = String.mk l
  rw [remove_occs_empty_pat]

theorem py_replace_append_self (pre s : String) (hp : pre ≠ "") :
    py_replace pre (pre ++ s) = py_replace pre s := by
  unfold py_replace
  rw [String.data_append]
  congr 1
  apply remove_occs_append_self
  intro hc
  apply hp
  obtain ⟨l⟩ := pre
  have : l = [] := hc
  rw [this]

/-! Lemmas about `combineVal`. -/

theorem combineVal_none (v : Value) : combineVal none v = v := by
  cases v <;> simp [combineVal]

theorem combineVal_some_str (s : String) (v : Value) :
    combineVal (some (Value.str s)) v = v := by
  cases v <;> simp [combineVal]

theorem combineVal_str_right (x : Option Value) (s : String) :
    combineVal x (Value.str s) = Value.str s := by
  cases x with
  | none => simp [combineVal]
  | some v => cases v <;> simp [combineVal]

/-! Characterization of the env-name lookup loop. -/

theorem lookup_env_nil (vars : List (String × String)) :
    BaseSettings.lookup_env vars [] = none := rfl

theorem lookup_env_cons (vars : List (String × String)) (n : String) (rest : List String) :
    BaseSettings.lookup_env vars (n :: rest) =
      match dlookup vars n with
      | some v => some (n, v)
      | none => BaseSettings.lookup_env vars rest := rfl

theorem lookup_env_none_iff (vars : List (String × String)) (names : List String) :
    BaseSettings.lookup_env vars names = none ↔ ∀ n ∈ names, dlookup vars n = none := by
  induction names with
  | nil => simp [lookup_env_nil]
  | cons n rest ih =>
    rw [lookup_env_cons]
    cases hd : dlookup vars n with
    | none => simp [hd, ih]
    | some v => simp [hd]

theorem lookup_env_some_iff (vars : List (String × String)) (names : List String)
    (n : String) (raw : String) :
    BaseSettings.lookup_env vars names = some (n, raw) ↔
      ∃ l1 l2, names = l1 ++ n :: l2 ∧ (∀ m ∈ l1, dlookup vars m = none) ∧
        dlookup vars n = some raw := by
  constructor
  · intro h
    induction names with
    | nil => rw [lookup_env_nil] at h; cases h
    | cons m rest ih =>
      rw [lookup_env_cons] at h
      cases hd : dlookup vars m with
      | some v =>
        rw [hd] at h
        injection h with hpair
        injection hpair with h1 h2
        subst h1
        subst h2
        exact ⟨[], rest, rfl, fun x hx => absurd hx (List.not_mem_nil x), hd⟩
      | none =>
        rw [hd] at h
        obtain ⟨l1, l2, he, hab, hn⟩ := ih h
        refine ⟨m :: l1, l2, by rw [he]; rfl, ?_, hn⟩
        intro x hx
        rcases List.mem_cons.mp hx with hxm | hxl
        · rw [hxm]; exact hd
        · exact hab x hxl
  · rintro ⟨l1, l2, he, hab, hn⟩
    subst he
    induction l1 with
    | nil =>
      rw [List.nil_append, lookup_env_cons, hn]
    | cons m l1t ih =>
      rw [List.cons_append, lookup_env_cons, hab m (List.mem_cons_self _ _)]
      exact ih (fun x hx => hab x (List.mem_cons_of_mem _ hx))

/-! Characterization of the keys produced by the two normalizers. -/

theorem mem_keys_norm_foldl (cs : Bool) (e : Extra) (pre : String) (legal : List String) :
    ∀ (items : List (String × Option String)) (acc : ValMap) (k : String),
      k ∈ keys (items.foldl (BaseSettings.norm_step cs e pre legal) acc) ↔
        k ∈ keys acc ∨ ∃ name v nm, (name, some v) ∈ items ∧
          BaseSettings.norm_keep cs e legal name = some nm ∧ k = py_replace pre nm := by
  intro items
  induction items with
  | nil =>
    intro acc k
    simp
  | cons p rest ih =>
    intro acc k
    obtain ⟨name0, v0⟩ := p
    rw [List.foldl_cons]
    cases v0 with
    | none =>
      rw [norm_step_none, ih]
      constructor
      · rintro (hacc | ⟨name, v, nm, hmem, hkeep, hk⟩)
        · exact Or.inl hacc
        · exact Or.inr ⟨name, v, nm, List.mem_cons_of_mem _ hmem, hkeep, hk⟩
      · rintro (hacc | ⟨name, v, nm, hmem, hkeep, hk⟩)
        · exact Or.inl hacc
        · rcases List.mem_cons.mp hmem with he | hm
          · exact absurd (congrArg Prod.snd he) (by simp)
          · exact Or.inr ⟨name, v, nm, hm, hkeep, hk⟩
    | some v0 =>
      rw [norm_step_some]
      cases hkeep0 : BaseSettings.norm_keep cs e legal name0 with
      | none =>
        rw [ih]
        constructor
        · rintro (hacc | ⟨name, v, nm, hmem, hkeep, hk⟩)
          · exact Or.inl hacc
          · exact Or.inr ⟨name, v, nm, List.mem_cons_of_mem _ hmem, hkeep, hk⟩
        · rintro (hacc | ⟨name, v, nm, hmem, hkeep, hk⟩)
          · exact Or.inl hacc
          · rcases List.mem_cons.mp hmem with he | hm
            · have h1 : name = name0 := congrArg Prod.fst he
              rw [h1, hkeep0] at hkeep
              cases hkeep
            · exact Or.inr ⟨name, v, nm, hm, hkeep, hk⟩
      | some nm0 =>
        rw [ih]
        constructor
        · rintro (hacc | ⟨name, v, nm, hmem, hkeep, hk⟩)
          · rcases (mem_keys_dinsert acc (py_replace pre nm0) k (Value.str v0)).mp hacc
              with hm | he
            · exact Or.inl hm
            · exact Or.inr ⟨name0, v0, nm0, List.mem_cons_self _ _, hkeep0, he⟩
          · exact Or.inr ⟨name, v, nm, List.mem_cons_of_mem _ hmem, hkeep, hk⟩
        · rintro (hacc | ⟨name, v, nm, hmem, hkeep, hk⟩)
          · exact Or.inl ((mem_keys_dinsert acc _ k _).mpr (Or.inl hacc))
          · rcases List.mem_cons.mp hmem with he | hm
            · have h1 : name = name0 := congrArg Prod.fst he
              rw [h1, hkeep0] at hkeep
              injection hkeep with h2
              subst h2
              exact Or.inl ((mem_keys_dinsert acc _ k _).mpr (Or.inr hk))
            · exact Or.inr ⟨name, v, nm, hm, hkeep, hk⟩

theorem mem_keys_norm_items (cs : Bool) (e : Extra) (pre : String) (legal : List String)
    (items : List (String × Option String)) (k : String) :
    k ∈ keys (BaseSettings._normalize_items cs e pre legal items) ↔
      ∃ name v nm, (name, some v) ∈ items ∧
        BaseSettings.norm_keep cs e legal name = some nm ∧ k = py_replace pre nm := by
  rw [BaseSettings._normalize_items, mem_keys_norm_foldl]
  simp [keys]

theorem module_norm_step_none (cs : Bool) (pre : String) (result : List (String × String))
    (name : String) : module_norm_step cs pre result (name, none) = result := rfl

theorem module_norm_step_some (cs : Bool) (pre : String) (result : List (String × String))
    (name v : String) :
    module_norm_step cs pre result (name, some v) =
      dinsert result (py_replace pre (if cs then name else name.toLower)) v := rfl

theorem mem_keys_module_norm_foldl (cs : Bool) (pre : String) :
    ∀ (items : List (String × Option String)) (acc : List (String × String)) (k : String),
      k ∈ keys (items.foldl (module_norm_step cs pre) acc) ↔
        k ∈ keys acc ∨ ∃ name v, (name, some v) ∈ items ∧
          k = py_replace pre (if cs then name else name.toLower) := by
  intro items
  induction items with
  | nil =>
    intro acc k
    simp
  | cons p rest ih =>
    intro acc k
    obtain ⟨name0, v0⟩ := p
    rw [List.foldl_cons]
    cases v0 with
    | none =>
      rw [module_norm_step_none, ih]
      constructor
      · rintro (hacc | ⟨name, v, hmem, hk⟩)
        · exact Or.inl hacc
        · exact Or.inr ⟨name, v, List.mem_cons_of_mem _ hmem, hk⟩
      · rintro (hacc | ⟨name, v, hmem, hk⟩)
        · exact Or.inl hacc
        · rcases List.mem_cons.mp hmem with he | hm
          · exact absurd (congrArg Prod.snd he) (by simp)
          · exact Or.inr ⟨name, v, hm, hk⟩
    | some v0 =>
      rw [module_norm_step_some, ih]
      constructor
      · rintro (hacc | ⟨name, v, hmem, hk⟩)
        · rcases (mem_keys_dinsert acc _ k _).mp hacc with hm | he
          · exact Or.inl hm
          · exact Or.inr ⟨name0, v0, List.mem_cons_self _ _, he⟩
        · exact Or.inr ⟨name, v, List.mem_cons_of_mem _ hmem, hk⟩
      · rintro (hacc | ⟨name, v, hmem, hk⟩)
        · exact Or.inl ((mem_keys_dinsert acc _ k _).mpr (Or.inl hacc))
        · rcases List.mem_cons.mp hmem with he | hm
          · have h1 : name = name0 := congrArg Prod.fst he
            rw [h1] at hk
            exact Or.inl ((mem_keys_dinsert acc _ k _).mpr (Or.inr hk))
          · exact Or.inr ⟨name, v, hm, hk⟩

theorem mem_keys_module_norm (cs : Bool) (pre : String)
    (items : List (String × Option String)) (k : String) :
    k ∈ keys (normalize_items items cs pre) ↔
      ∃ name v, (name, some v) ∈ items ∧
        k = py_replace pre (if cs then name else name.toLower) := by
  rw [normalize_items, mem_keys_module_norm_foldl]
  simp [keys]

theorem mem_keys_gav_union (cs : Bool) (e : Extra) (pre : String) (legal : List String) :
    ∀ (gs : List (List (String × Option String))) (acc : ValMap) (k : String),
      k ∈ keys (gs.foldl
          (fun r g => dupdate r (BaseSettings._normalize_items cs e pre legal g)) acc) ↔
        k ∈ keys acc ∨ ∃ g ∈ gs, k ∈ keys (BaseSettings._normalize_items cs e pre legal g) := by
  intro gs
  induction gs with
  | nil =>
    intro acc k
    simp
  | cons g rest ih =>
    intro acc k
    rw [List.foldl_cons, ih, mem_keys_dupdate]
    constructor
    · rintro ((ha | hg) | ⟨g2, hg2, hk2⟩)
      · exact Or.inl ha
      · exact Or.inr ⟨g, List.mem_cons_self _ _, hg⟩
      · exact Or.inr ⟨g2, List.mem_cons_of_mem _ hg2, hk2⟩
    · rintro (ha | ⟨g2, hg2, hk2⟩)
      · exact Or.inl (Or.inl ha)
      · rcases List.mem_cons.mp hg2 with he | hm
        · subst he
          exact Or.inl (Or.inr hk2)
        · exact Or.inr ⟨g2, hm, hk2⟩

theorem dlookup_mem (m : List (String × α)) (k : String) (v : α)
    (h : dlookup m k = some v) : (k, v) ∈ m := by
  induction m with
  | nil => cases h
  | cons q rest ih =>
    rw [dlookup_cons] at h
    by_cases hq : q.1 = k
    · rw [if_pos hq] at h
      have hv : q.2 = v := Option.some.inj h
      have he : (k, v) = q := by rw [← hq, ← hv]
      rw [he]
      exact List.mem_cons_self _ _
    · rw [if_neg hq] at h
      exact List.mem_cons_of_mem _ (ih h)

theorem norm_keep_eq (cs : Bool) (e : Extra) (legal : List String) (name : String) :
    BaseSettings.norm_keep cs e legal name =
      if ((if cs then legal.contains name
           else (legal.map String.toLower).contains name.toLower) || relaxed_extra e) = true
      then some (if cs then name else name.toLower)
      else none := by
  cases cs with
  | false =>
    cases hcond : ((legal.map String.toLower).contains name.toLower || relaxed_extra e) <;>
      simp [BaseSettings.norm_keep, hcond]
  | true =>
    cases hcond : (legal.contains name || relaxed_extra e) <;>
      simp [BaseSettings.norm_keep, hcond]

theorem py_replace_app_example : py_replace "app_" "my_app_key" = "my_key" := by
  have hp : "app_".data ≠ [] := by decide
  have s3 : remove_occs "app_".data "key".data = "key".data := by
    rw [show "key".data = 'k' :: 'e' :: 'y' :: [] from rfl]
    rw [remove_occs_cons_not "app_".data 'k' ['e', 'y'] (by decide)]
    rw [remove_occs_cons_not "app_".data 'e' ['y'] (by decide)]
    rw [remove_occs_cons_not "app_".data 'y' [] (by decide)]
    rw [remove_occs_nil_right]
  have s2 : remove_occs "app_".data ("app_".data ++ "key".data) = "key".data := by
    rw [remove_occs_append_self _ _ hp, s3]
  have s1 : remove_occs "app_".data "my_app_key".data = "my_key".data := by
    rw [show "my_app_key".data = 'm' :: 'y' :: '_' :: ("app_".data ++ "key".data) from rfl]
    rw [remove_occs_cons_not "app_".data 'm' ('y' :: '_' :: ("app_".data ++ "key".data))
      (by decide)]
    rw [remove_occs_cons_not "app_".data 'y' ('_' :: ("app_".data ++ "key".data)) (by decide)]
    rw [remove_occs_cons_not "app_".data '_' ("app_".data ++ "key".data) (by decide)]
    rw [s2]
  show String.mk (remove_occs "app_".data "my_app_key".data) = "my_key"
  rw [s1]

/-! The claim theorems. -/

/-- C6: at type-preparation time, a field whose `env` setting is neither
absent, a string, a set, nor an ordered sequence fails with the fatal
configuration error (the spec's ConfigError), whose message names the
offending value and its displayed type; no other `env` shape produces
that error. -/
theorem c6_invalid_env_shape_fails :
    (∀ (pre : String) (cs : Bool) (name : String) (ha : Bool) (r t : String),
      BaseSettings.prepare_field pre cs name ha (BaseSettings.EnvSetting.other r t) =
        .error ⟨BaseSettings.invalid_env_message r t⟩) ∧
    (∀ (pre : String) (cs : Bool) (name : String) (ha : Bool)
        (env : BaseSettings.EnvSetting) (e : ConfigError),
      BaseSettings.prepare_field pre cs name ha env = .error e →
      ∃ r t, env = BaseSettings.EnvSetting.other r t ∧
        e = ⟨BaseSettings.invalid_env_message r t⟩) ∧
    (∀ r t, BaseSettings.invalid_env_message r t =
      "invalid field env: " ++ r ++ " (" ++ t ++ "); should be string, list or set") := by
  refine ⟨fun pre cs name ha r t => rfl, ?_, fun r t => rfl⟩
  intro pre cs name ha env e h
  cases env with
  | absent => cases h
  | str sv => cases h
  | set ns => cases h
  | seq ns => cases h
  | other r t => exact ⟨r, t, rfl, (Except.error.inj h).symm⟩

/-- C6 witness: a concrete invalid `env` value (a timedelta object)
yields the error naming the value and its type. -/
theorem c6_invalid_env_shape_fails_witness :
    ∃ r t, BaseSettings.EnvSetting.other "datetime.timedelta(0)" "timedelta" =
        BaseSettings.EnvSetting.other r t ∧
      (⟨BaseSettings.invalid_env_message "datetime.timedelta(0)" "timedelta"⟩ : ConfigError) =
        ⟨BaseSettings.invalid_env_message r t⟩ :=
  c6_invalid_env_shape_fails.2.1 "p" true "f" false
    (BaseSettings.EnvSetting.other "datetime.timedelta(0)" "timedelta")
    ⟨BaseSettings.invalid_env_message "datetime.timedelta(0)" "timedelta"⟩ rfl

/-- C7: the registered auxiliary getters (each modelled by the mapping
it returns under its fixed keyword arguments) have their results
normalized and unioned in registration order: the consolidated lookup at
any key is the last present value among the getters' normalized lookups,
and a key is present iff some getter's normalized mapping supplies it. -/
theorem c7_getters_last_wins (cs : Bool) (e : Extra) (pre : String) (legal : List String)
    (gs : List (List (String × Option String))) (k : String) :
    (BaseSettings._get_additional_values cs e pre legal gs =
      gs.foldl (fun result g =>
        dupdate result (BaseSettings._normalize_items cs e pre legal g)) []) ∧
    dlookup (BaseSettings._get_additional_values cs e pre legal gs) k =
      last_present (gs.map (fun g =>
        dlookup (BaseSettings._normalize_items cs e pre legal g) k)) ∧
    (k ∈ keys (BaseSettings._get_additional_values cs e pre legal gs) ↔
      ∃ g ∈ gs, k ∈ keys (BaseSettings._normalize_items cs e pre legal g)) := by
  refine ⟨rfl, ?_, ?_⟩
  · have h := dlookup_gav_foldl cs e pre legal k gs [] (by simp [keys])
    rw [show dlookup ([] : ValMap) k = none from rfl] at h
    exact h.trans rfl
  · have h := mem_keys_gav_union cs e pre legal gs [] k
    simpa [keys] using h

/-- C8: environment-name resolution per field: an absent `env` yields
the singleton prefix-plus-field-name (warning exactly when the field
carries an alias); a string yields itself with no prefix; a set is taken
as-is; a sequence keeps its order; and with a case-insensitive
configuration every resulting name is lower-cased. -/
theorem c8_env_name_resolution :
    (∀ (pre : String) (cs : Bool) (name : String) (ha : Bool),
      BaseSettings.prepare_field pre cs name ha BaseSettings.EnvSetting.absent =
        .ok (if cs then [pre ++ name] else [(pre ++ name).toLower], ha)) ∧
    (∀ (pre : String) (cs : Bool) (name : String) (ha : Bool) (s : String),
      BaseSettings.prepare_field pre cs name ha (BaseSettings.EnvSetting.str s) =
        .ok (if cs then [s] else [s.toLower], false)) ∧
    (∀ (pre : String) (cs : Bool) (name : String) (ha : Bool) (ns : List String),
      BaseSettings.prepare_field pre cs name ha (BaseSettings.EnvSetting.set ns) =
        .ok (if cs then ns else ns.map String.toLower, false)) ∧
    (∀ (pre : String) (cs : Bool) (name : String) (ha : Bool) (ns : List String),
      BaseSettings.prepare_field pre cs name ha (BaseSettings.EnvSetting.seq ns) =
        .ok (if cs then ns else ns.map String.toLower, false)) := by
  refine ⟨fun pre cs name ha => ?_, fun pre cs name ha s => ?_,
    fun pre cs name ha ns => ?_, fun pre cs name ha ns => ?_⟩ <;>
    cases cs <;> rfl

/-- C9: the three-way precedence merge is the double pairwise
deep-update; deep-update is idempotent on well-formed mappings; keys
unique to any input appear in the merged result; and a raw-string (non
mapping) override value always fully replaces the base value. -/
theorem c9_merge_algebra :
    (∀ a b c : ValMap, BaseSettings._build_values c b a = deep_update (deep_update a b) c) ∧
    (∀ x : ValMap, wfMap x = true → deep_update x x = x) ∧
    (∀ (a b c : ValMap) (k : String), k ∈ keys a ∨ k ∈ keys b ∨ k ∈ keys c →
      k ∈ keys (BaseSettings._build_values c b a)) ∧
    (∀ (b o : ValMap) (k s : String), (keys o).Nodup → dlookup o k = some (Value.str s) →
      dlookup (deep_update b o) k = some (Value.str s)) := by
  refine ⟨fun a b c => rfl, fun x h => deep_update_self x h, ?_, ?_⟩
  · intro a b c k hk
    have h1 : k ∈ keys (deep_update a b) ∨ k ∈ keys c := by
      rcases hk with h | h | h
      · exact Or.inl ((mem_keys_deep_update a b k).mpr (Or.inl h))
      · exact Or.inl ((mem_keys_deep_update a b k).mpr (Or.inr h))
      · exact Or.inr h
    exact (mem_keys_deep_update (deep_update a b) c k).mpr h1
  · intro b o k s hnd hl
    rw [dlookup_deep_update b o k hnd, hl]
    show some (combineVal (dlookup b k) (Value.str s)) = some (Value.str s)
    rw [combineVal_str_right]

/-- C9 witness: idempotence on a concrete nested mapping, a key unique
to the explicit values appearing in the merge, and a string override
replacing outright. -/
theorem c9_merge_algebra_witness :
    deep_update [("a", Value.str "1"), ("m", Value.map [("x", Value.str "2")])]
        [("a", Value.str "1"), ("m", Value.map [("x", Value.str "2")])] =
      [("a", Value.str "1"), ("m", Value.map [("x", Value.str "2")])] ∧
    "z" ∈ keys (BaseSettings._build_values [("z", Value.str "9")] [] []) ∧
    dlookup (deep_update [("k", Value.map [])] [("k", Value.str "v")]) "k" =
      some (Value.str "v") := by
  refine ⟨c9_merge_algebra.2.1 _ (by rfl), ?_, ?_⟩
  · exact c9_merge_algebra.2.2.1 [] [] [("z", Value.str "9")] "z"
      (Or.inr (Or.inr (by simp [keys])))
  · exact c9_merge_algebra.2.2.2 [("k", Value.map [])] [("k", Value.str "v")] "k" "v"
      (by simp [keys]) rfl

/-- C2: environment reading takes one snapshot of the process
environment (lower-casing its keys when case-insensitive), tries a
field's `env_names` in lookup order taking the first present one, stores
the value under the field's alias, and omits from the mapping any field
none of whose names is present. -/
theorem c2_environ_reading (cs : Bool) (jl : String → Option Value)
    (fields : List FieldDesc) (environ : List (String × String)) (d : ValMap)
    (hnd : (fields.map FieldDesc.aliasName).Nodup)
    (hok : BaseSettings._build_environ cs jl fields environ = .ok d) :
    (BaseSettings.env_snapshot true environ = environ) ∧
    (BaseSettings.env_snapshot false environ =
      environ.foldl (fun acc p => dinsert acc p.1.toLower p.2) []) ∧
    (∀ names, BaseSettings.lookup_env (BaseSettings.env_snapshot cs environ) names = none ↔
      ∀ n ∈ names, dlookup (BaseSettings.env_snapshot cs environ) n = none) ∧
    (∀ names n raw,
      BaseSettings.lookup_env (BaseSettings.env_snapshot cs environ) names = some (n, raw) ↔
      ∃ l1 l2, names = l1 ++ n :: l2 ∧
        (∀ m ∈ l1, dlookup (BaseSettings.env_snapshot cs environ) m = none) ∧
        dlookup (BaseSettings.env_snapshot cs environ) n = some raw) ∧
    (∀ f ∈ fields,
      (BaseSettings.lookup_env (BaseSettings.env_snapshot cs environ) f.envNames = none ↔
        dlookup d f.aliasName = none) ∧
      (∀ n raw,
        BaseSettings.lookup_env (BaseSettings.env_snapshot cs environ) f.envNames =
          some (n, raw) →
        f.isComplex = false → dlookup d f.aliasName = some (Value.str raw))) := by
  refine ⟨rfl, rfl, fun names => lookup_env_none_iff _ names,
    fun names n raw => lookup_env_some_iff _ names n raw, ?_⟩
  intro f hf
  have hlk := build_environ_go_lookup jl (BaseSettings.env_snapshot cs environ) fields [] d
    hok hnd (fun g _ => rfl) f hf
  refine ⟨⟨fun h => hlk.1 h, ?_⟩, fun n raw hl hc => hlk.2.2 n raw hl hc⟩
  intro hdn
  cases hl : BaseSettings.lookup_env (BaseSettings.env_snapshot cs environ) f.envNames with
  | none => rfl
  | some nr =>
    obtain ⟨n, raw⟩ := nr
    cases hcb : f.isComplex with
    | true =>
      obtain ⟨v, _, hv⟩ := hlk.2.1 n raw hl hcb
      rw [hv] at hdn
      cases hdn
    | false =>
      have hv := hlk.2.2 n raw hl hcb
      rw [hv] at hdn
      cases hdn

/-- C2 witness: a field with names `APP_A` then `A`, an environment
holding only `A`, resolves to the value of `A` stored under the alias. -/
theorem c2_environ_reading_witness :
    dlookup [("a", Value.str "1")] "a" = some (Value.str "1") := by
  have h := c2_environ_reading true (fun _ => none)
    [⟨"a", "a", false, ["APP_A", "A"]⟩] [("A", "1")] [("a", Value.str "1")]
    (by simp) rfl
  exact (h.2.2.2.2 ⟨"a", "a", false, ["APP_A", "A"]⟩ (by simp)).2 "A" "1" rfl rfl

/-- C5: a complex field whose environment value is present but not
decodable aborts environment resolution with the engine's
`SettingsError` whose message names the environment variable that
supplied some undecodable complex value, and no mapping is produced. -/
theorem c5_decode_failure_aborts (cs : Bool) (jl : String → Option Value)
    (fields : List FieldDesc) (environ : List (String × String)) (f : FieldDesc)
    (n raw : String) (hf : f ∈ fields) (hc : f.isComplex = true)
    (hl : BaseSettings.lookup_env (BaseSettings.env_snapshot cs environ) f.envNames =
      some (n, raw))
    (hj : jl raw = none) :
    (∃ f2 n2 raw2, f2 ∈ fields ∧ f2.isComplex = true ∧
      BaseSettings.lookup_env (BaseSettings.env_snapshot cs environ) f2.envNames =
        some (n2, raw2) ∧
      jl raw2 = none ∧
      BaseSettings._build_environ cs jl fields environ =
        .error ⟨"error parsing JSON for \x22" ++ n2 ++ "\x22"⟩) ∧
    (∀ d, BaseSettings._build_environ cs jl fields environ ≠ .ok d) := by
  obtain ⟨f2, n2, raw2, hf2, hc2, hl2, hj2, hgo⟩ :=
    build_environ_go_error jl (BaseSettings.env_snapshot cs environ) fields [] f n raw
      hf hc hl hj
  refine ⟨⟨f2, n2, raw2, hf2, hc2, hl2, hj2, hgo⟩, ?_⟩
  intro d hd
  rw [show BaseSettings._build_environ cs jl fields environ =
    BaseSettings.build_environ_go jl (BaseSettings.env_snapshot cs environ) fields []
    from rfl, hgo] at hd
  cases hd

/-- C5 witness: a complex field `tags` with env name `TAGS` holding an
undecodable value makes resolution fail with the error naming `TAGS`. -/
theorem c5_decode_failure_aborts_witness :
    ∃ f2 n2 raw2, f2 ∈ [(⟨"tags", "tags", true, ["TAGS"]⟩ : FieldDesc)] ∧
      f2.isComplex = true ∧
      BaseSettings.lookup_env
        (BaseSettings.env_snapshot true [("TAGS", "not-json")]) f2.envNames =
        some (n2, raw2) ∧
      (fun (_ : String) => (none : Option Value)) raw2 = none ∧
      BaseSettings._build_environ true (fun _ => none)
        [⟨"tags", "tags", true, ["TAGS"]⟩] [("TAGS", "not-json")] =
        .error ⟨"error parsing JSON for \x22" ++ n2 ++ "\x22"⟩ :=
  (c5_decode_failure_aborts true (fun _ => none) [⟨"tags", "tags", true, ["TAGS"]⟩]
    [("TAGS", "not-json")] ⟨"tags", "tags", true, ["TAGS"]⟩ "TAGS" "not-json"
    (by simp) rfl rfl rfl).1

/-- C1: for a successful construction and a non-complex field, the
consolidated value at the field's alias is the explicit value if passed,
else the first present environment value among the field's env names,
else the merged auxiliary-getter value, else absent. -/
theorem c1_precedence (cs : Bool) (e : Extra) (pre : String) (legal : List String)
    (jl : String → Option Value) (fields : List FieldDesc)
    (environ : List (String × String)) (gs : List (List (String × Option String)))
    (init environ_values : ValMap) (f : FieldDesc)
    (hf : f ∈ fields) (hnc : f.isComplex = false)
    (hnd : (fields.map FieldDesc.aliasName).Nodup)
    (hinit : (keys init).Nodup)
    (hok : BaseSettings._build_environ cs jl fields environ = .ok environ_values) :
    dlookup (BaseSettings._build_values init environ_values
        (BaseSettings._get_additional_values cs e pre legal gs)) f.aliasName =
      ((dlookup init f.aliasName).orElse (fun _ =>
        ((BaseSettings.lookup_env (BaseSettings.env_snapshot cs environ) f.envNames).map
            (fun nr => Value.str nr.2)).orElse (fun _ =>
          dlookup (BaseSettings._get_additional_values cs e pre legal gs) f.aliasName))) := by
  have hlk := build_environ_go_lookup jl (BaseSettings.env_snapshot cs environ) fields []
    environ_values hok hnd (fun g _ => rfl) f hf
  have henv : dlookup environ_values f.aliasName =
      (BaseSettings.lookup_env (BaseSettings.env_snapshot cs environ) f.envNames).map
        (fun nr => Value.str nr.2) := by
    cases hl : BaseSettings.lookup_env (BaseSettings.env_snapshot cs environ) f.envNames with
    | none => rw [hlk.1 hl]; rfl
    | some nr =>
      obtain ⟨n, raw⟩ := nr
      rw [hlk.2.2 n raw hl hnc]
      rfl
  have hnodup_env : (keys environ_values).Nodup :=
    build_environ_go_nodup jl (BaseSettings.env_snapshot cs environ) fields []
      environ_values (by simp [keys]) hok
  have hinner := dlookup_deep_update
    (BaseSettings._get_additional_values cs e pre legal gs) environ_values f.aliasName
    hnodup_env
  have hlow_str : ∀ w, dlookup (deep_update
      (BaseSettings._get_additional_values cs e pre legal gs) environ_values)
      f.aliasName = some w → ∃ s2, w = Value.str s2 := by
    intro w hw
    rw [hinner] at hw
    cases he : dlookup environ_values f.aliasName with
    | some u =>
      rw [he] at hw
      have hu : ∃ s2, u = Value.str s2 := by
        rw [henv] at he
        cases hl2 : BaseSettings.lookup_env (BaseSettings.env_snapshot cs environ)
            f.envNames with
        | none => rw [hl2] at he; cases he
        | some nr =>
          rw [hl2] at he
          exact ⟨nr.2, (Option.some.inj he).symm⟩
      obtain ⟨s2, hs2⟩ := hu
      subst hs2
      have hw2 : some (combineVal (dlookup
          (BaseSettings._get_additional_values cs e pre legal gs) f.aliasName)
          (Value.str s2)) = some w := hw
      rw [combineVal_str_right] at hw2
      exact ⟨s2, (Option.some.inj hw2).symm⟩
    | none =>
      rw [he] at hw
      have hw2 : dlookup (BaseSettings._get_additional_values cs e pre legal gs)
          f.aliasName = some w := hw
      have hmem := dlookup_mem _ _ _ hw2
      have := strValued_gav cs e pre legal gs (f.aliasName, w) hmem
      simpa using this
  rw [BaseSettings._build_values, dlookup_deep_update _ init f.aliasName hinit]
  cases hi : dlookup init f.aliasName with
  | some v =>
    show some (combineVal (dlookup (deep_update
      (BaseSettings._get_additional_values cs e pre legal gs) environ_values)
      f.aliasName) v) = _
    have hres : combineVal (dlookup (deep_update
        (BaseSettings._get_additional_values cs e pre legal gs) environ_values)
        f.aliasName) v = v := by
      cases hlow : dlookup (deep_update
          (BaseSettings._get_additional_values cs e pre legal gs) environ_values)
          f.aliasName with
      | none => rw [combineVal_none]
      | some w =>
        obtain ⟨s2, hs2⟩ := hlow_str w hlow
        subst hs2
        rw [combineVal_some_str]
    rw [hres]
    rfl
  | none =>
    show dlookup (deep_update
      (BaseSettings._get_additional_values cs e pre legal gs) environ_values)
      f.aliasName = _
    rw [hinner, henv]
    cases hl : BaseSettings.lookup_env (BaseSettings.env_snapshot cs environ) f.envNames with
    | none => rfl
    | some nr =>
      show some (combineVal (dlookup
        (BaseSettings._get_additional_values cs e pre legal gs) f.aliasName)
        (Value.str nr.2)) = _
      rw [combineVal_str_right]
      rfl

/-- C1 witness: field `port` with env names `APP_PORT` then `PORT`, no
explicit `port` value, environment holding `PORT=8080`, and a getter
supplying `timeout`: the consolidated value of `port` is `"8080"`. -/
theorem c1_precedence_witness :
    dlookup (BaseSettings._build_values [("host", Value.str "h")]
        [("port", Value.str "8080")]
        (BaseSettings._get_additional_values true Extra.allow "" ["port", "timeout"]
          [[("timeout", some "30")]])) "port" = some (Value.str "8080") := by
  have h := c1_precedence true Extra.allow "" ["port", "timeout"] (fun _ => none)
    [⟨"port", "port", false, ["APP_PORT", "PORT"]⟩] [("PORT", "8080")]
    [[("timeout", some "30")]] [("host", Value.str "h")] [("port", Value.str "8080")]
    ⟨"port", "port", false, ["APP_PORT", "PORT"]⟩ (by simp) rfl (by simp) (by simp [keys])
    rfl
  exact h.trans rfl

/-- C3: normalization of an auxiliary-source mapping keeps an entry iff
its value is non-null and either its key matches a legal alias (exactly
when case-sensitive, lower-cased against lower-cased aliases otherwise)
or the extra policy is relaxed (allow/ignore); and a key is in the
consolidated mapping iff some source mapping supplies it, so
forbidden-and-unmatched keys are silently absent while kept keys appear
(after prefix-stripping). -/
theorem c3_normalize_keep_drop :
    (∀ (cs : Bool) (e : Extra) (pre : String) (legal : List String)
        (items : List (String × Option String)) (k : String),
      k ∈ keys (BaseSettings._normalize_items cs e pre legal items) ↔
        ∃ name v, (name, some v) ∈ items ∧
          ((if cs then legal.contains name
            else (legal.map String.toLower).contains name.toLower) ||
            relaxed_extra e) = true ∧
          k = py_replace pre (if cs then name else name.toLower)) ∧
    (relaxed_extra Extra.allow = true ∧ relaxed_extra Extra.ignore = true ∧
      relaxed_extra Extra.forbid = false) ∧
    (∀ (init env_values add : ValMap) (k : String),
      k ∈ keys (BaseSettings._build_values init env_values add) ↔
        k ∈ keys add ∨ k ∈ keys env_values ∨ k ∈ keys init) := by
  refine ⟨?_, ⟨rfl, rfl, rfl⟩, ?_⟩
  · intro cs e pre legal items k
    rw [mem_keys_norm_items]
    constructor
    · rintro ⟨name, v, nm, hmem, hkeep, hk⟩
      rw [norm_keep_eq] at hkeep
      by_cases hcond : ((if cs then legal.contains name
          else (legal.map String.toLower).contains name.toLower) || relaxed_extra e) = true
      · rw [if_pos hcond] at hkeep
        have hnm := Option.some.inj hkeep
        refine ⟨name, v, hmem, hcond, ?_⟩
        rw [hk, ← hnm]
      · rw [if_neg hcond] at hkeep
        cases hkeep
    · rintro ⟨name, v, hmem, hcond, hk⟩
      refine ⟨name, v, if cs then name else name.toLower, hmem, ?_, hk⟩
      rw [norm_keep_eq, if_pos hcond]
  · intro init env_values add k
    show k ∈ keys (deep_update (deep_update add env_values) init) ↔ _
    rw [mem_keys_deep_update, mem_keys_deep_update]
    tauto

/-- C4 counterexample: with prefix `app_`, the key `my_app_key` (kept
under a relaxed extra policy) is stored as `my_key` — the interior
occurrence of the prefix text is removed — whereas stripping exactly one
leading occurrence would leave `my_app_key` unchanged. -/
theorem c4_counterexample :
    BaseSettings._normalize_items true Extra.allow "app_" [] [("my_app_key", some "v")] =
      [("my_key", Value.str "v")] ∧
    strip_leading_once "app_" "my_app_key" = "my_app_key" ∧
    "my_key" ≠ "my_app_key" := by
  refine ⟨?_, by decide, by decide⟩
  rw [show BaseSettings._normalize_items true Extra.allow "app_" [] [("my_app_key", some "v")]
      = [(py_replace "app_" "my_app_key", Value.str "v")] from rfl, py_replace_app_example]

/-- C4 amended: for every surviving key, every occurrence of the prefix
text in the (possibly lower-cased) key is removed, with Python
`str.replace` left-to-right semantics — in particular a leading
occurrence is stripped and removal continues into the remainder — and
the result is the final key placed in the normalized mapping. -/
theorem c4_amended_replace_all :
    (∀ (cs : Bool) (e : Extra) (pre : String) (legal : List String)
        (items : List (String × Option String)) (k : String),
      k ∈ keys (BaseSettings._normalize_items cs e pre legal items) →
        ∃ name v, (name, some v) ∈ items ∧
          k = py_replace pre (if cs then name else name.toLower)) ∧
    (∀ (cs : Bool) (e : Extra) (pre : String) (legal : List String)
        (items : List (String × Option String)) (name v nm : String),
      (name, some v) ∈ items → BaseSettings.norm_keep cs e legal name = some nm →
        py_replace pre nm ∈ keys (BaseSettings._normalize_items cs e pre legal items)) ∧
    (∀ pre s : String, pre ≠ "" → py_replace pre (pre ++ s) = py_replace pre s) ∧
    py_replace "app_" "my_app_key" = "my_key" := by
  refine ⟨?_, ?_, fun pre s hp => py_replace_append_self pre s hp, py_replace_app_example⟩
  · intro cs e pre legal items k hk
    obtain ⟨name, v, nm, hmem, hkeep, hkk⟩ :=
      (mem_keys_norm_items cs e pre legal items k).mp hk
    rw [norm_keep_eq] at hkeep
    by_cases hcond : ((if cs then legal.contains name
        else (legal.map String.toLower).contains name.toLower) || relaxed_extra e) = true
    · rw [if_pos hcond] at hkeep
      have hnm := Option.some.inj hkeep
      refine ⟨name, v, hmem, ?_⟩
      rw [hkk, ← hnm]
    · rw [if_neg hcond] at hkeep
      cases hkeep
  · intro cs e pre legal items name v nm hmem hkeep
    exact (mem_keys_norm_items cs e pre legal items (py_replace pre nm)).mpr
      ⟨name, v, nm, hmem, hkeep, rfl⟩

/-- C4 amended witness: a leading prefix occurrence is stripped with
removal continuing, and a kept entry's transformed key is in the
output. -/
theorem c4_amended_replace_all_witness :
    py_replace "app_" ("app_" ++ "port") = py_replace "app_" "port" ∧
    py_replace "" "timeout" ∈ keys (BaseSettings._normalize_items true Extra.allow ""
      [] [("timeout", some "30")]) := by
  refine ⟨c4_amended_replace_all.2.2.1 "app_" "port" (by decide), ?_⟩
  exact c4_amended_replace_all.2.1 true Extra.allow "" [] [("timeout", some "30")]
    "timeout" "30" "timeout" (by simp) rfl

/-- C10: the module-level `normalize_items` keeps exactly the non-null
entries — lower-casing the key unless case-sensitive and stripping the
prefix text — with no legal-alias or extra-policy filtering, unlike the
method `BaseSettings._normalize_items`, which under a forbidding policy
drops the same unmatched entry. -/
theorem c10_module_normalize_no_filter :
    (∀ (items : List (String × Option String)) (cs : Bool) (pre k : String),
      k ∈ keys (normalize_items items cs pre) ↔
        ∃ name v, (name, some v) ∈ items ∧
          k = py_replace pre (if cs then name else name.toLower)) ∧
    (∀ (g : List (String × Option String)) (cs : Bool) (pre : String),
      read_additional_values g cs pre = normalize_items g cs pre) ∧
    (normalize_items [("secret", some "s")] true "" = [("secret", "s")] ∧
      BaseSettings._normalize_items true Extra.forbid "" [] [("secret", some "s")] = []) := by
  refine ⟨fun items cs pre k => mem_keys_module_norm cs pre items k,
    fun g cs pre => rfl, ?_, rfl⟩
  rw [show normalize_items [("secret", some "s")] true "" =
    [(py_replace "" "secret", "s")] from rfl, py_replace_empty]

end EnvSettings
